import Mathlib

/-!
Verification development for the labtasker command interpolation engine
(`labtasker/client/core/cmd_parser/parser.py`).

The engine substitutes `%(path.to.key)` placeholders in command words with
values drawn from a nested variable table.  The Python module wires an
ANTLR-generated lexer/parser (`LabCmdLexer`, `LabCmd`) to a tree listener
(`CmdListener`) that resolves dotted paths against the table and renders the
resolved values.  The listener, the diagnostic formatter
(`format_print_error`), `reverse_quotes`, and the entry points
(`interpolate_str`, `cmd_interpolate`) are embedded below from the source.
The grammar files themselves are generated artifacts that are not part of the
repository checkout, so tokenization and parsing are modelled from the spec
(sections 4.1 and 4.2); those definitions carry a `Modelled from the spec`
note in their doc comment.

Python values are embedded as the inductive `Value`; lists and dicts are
encoded as cons chains inside the single inductive so that every function is
structurally recursive (and hence evaluable by `decide`/`rfl`).
-/

namespace Labtasker

/-- Single-quote character (ASCII 39). -/
def sq : Char := Char.ofNat 39

/-- Double-quote character (ASCII 34). -/
def dq : Char := Char.ofNat 34

/-- Backslash character (ASCII 92). -/
def bsl : Char := Char.ofNat 92

/-- Newline character (ASCII 10). -/
def nl : Char := Char.ofNat 10

/-- Carriage-return character (ASCII 13). -/
def crC : Char := Char.ofNat 13

/-- Horizontal-tab character (ASCII 9). -/
def tabC : Char := Char.ofNat 9

/-- Whitespace characters skipped inside a placeholder (space, tab, CR, LF).
Modelled from the spec: the tokenizer discards whitespace tokens inside a
placeholder. -/
def isWS (c : Char) : Bool :=
  (c == ' ') || (c == tabC) || (c == crC) || (c == nl)

/-- Identifier characters: letters, digits and underscore.  Modelled from the
spec: identifiers are maximal runs of letters, digits, and underscore. -/
def isIdentChar (c : Char) : Bool :=
  c.isAlpha || c.isDigit || c == '_'

/-- Nested Python values held by the variable table: `Mapping`, `Sequence` or
`Scalar` (text, number, boolean, null).  Lists and dicts are encoded as cons
chains within the single inductive (`listCons h t` is the list with head `h`
and tail-list `t`; `dictCons k v t` is the dict with first entry `k ↦ v` and
remaining entries `t`) so that all recursion over values is structural. -/
inductive Value where
  | null
  | bool (b : Bool)
  | int (n : Int)
  | str (s : String)
  | listNil
  | listCons (head tail : Value)
  | dictNil
  | dictCons (key : String) (val tail : Value)
deriving DecidableEq

/-- Embeds Python `isinstance(v, dict)`. -/
def Value.isDict : Value → Bool
  | .dictNil => true
  | .dictCons _ _ _ => true
  | _ => false

/-- Embeds Python `v is None`. -/
def Value.isNull : Value → Bool
  | .null => true
  | _ => false

/-- Embeds Python `d.get(k)` restricted to dict chains: returns the first
value bound to `k`, or `none` when `k` is absent (or the value is not a
dict chain). -/
def dictGet : Value → String → Option Value
  | .dictCons k v t, key => if k = key then some v else dictGet t key
  | _, _ => none

/-- Embeds Python `type(v).__name__` for the value kinds of `Value`. -/
def pyTypeName : Value → String
  | .null => "NoneType"
  | .bool _ => "bool"
  | .int _ => "int"
  | .str _ => "str"
  | .listNil => "list"
  | .listCons _ _ => "list"
  | .dictNil => "dict"
  | .dictCons _ _ _ => "dict"

/-- Quote character chosen by Python `repr` for a string: a double quote when
the string contains a single quote but no double quote, else a single
quote. -/
def pyReprQuoteChar (s : List Char) : Char :=
  if s.contains sq && !(s.contains dq) then dq else sq

/-- Character escaping performed by Python `repr` on string contents, given
the enclosing quote character `q`: backslash, the quote character itself, and
the common control characters newline, carriage return and tab. -/
def pyReprEsc (q : Char) : List Char → List Char
  | [] => []
  | c :: cs =>
      (if c = bsl then [bsl, bsl]
       else if c = q then [bsl, q]
       else if c = nl then [bsl, 'n']
       else if c = crC then [bsl, 'r']
       else if c = tabC then [bsl, 't']
       else [c]) ++ pyReprEsc q cs

/-- Embeds Python `repr` of a string (quote selection plus escaping). -/
def pyReprStr (s : String) : String :=
  String.mk (pyReprQuoteChar s.data :: pyReprEsc (pyReprQuoteChar s.data) s.data ++ [pyReprQuoteChar s.data])

/-- Embeds Python `repr` of a `Value`.  The first component is the full
rendering; the second is the comma-joined body of a list/dict chain without
the surrounding brackets (used to render the tail of a cons chain). -/
def pyReprP : Value → String × String
  | .null => ("None", "")
  | .bool true => ("True", "")
  | .bool false => ("False", "")
  | .int n => (toString n, "")
  | .str s => (pyReprStr s, "")
  | .listNil => ("[]", "")
  | .listCons h t =>
      let hf := (pyReprP h).1
      let body :=
        match t with
        | .listNil => hf
        | _ => hf ++ ", " ++ (pyReprP t).2
      ("[" ++ body ++ "]", body)
  | .dictNil => ("\x7b\x7d", "")
  | .dictCons k v t =>
      let ent := pyReprStr k ++ ": " ++ (pyReprP v).1
      let body :=
        match t with
        | .dictNil => ent
        | _ => ent ++ ", " ++ (pyReprP t).2
      ("\x7b" ++ body ++ "\x7d", body)

/-- Embeds Python `repr(v)`: the canonical textual rendering of a value. -/
def pyRepr (v : Value) : String := (pyReprP v).1

/-- Embeds Python `str(v)`: like `repr`, except that a string renders as its
own characters with no quotes. -/
def pyStr (v : Value) : String :=
  match v with
  | .str s => s
  | v => pyRepr v

/-- Quote-swap character map: exchanges the single-quote and double-quote
characters and fixes everything else. -/
def swapQuote (c : Char) : Char :=
  if c = sq then dq else if c = dq then sq else c

/-- Embeds `reverse_quotes` (parser.py lines 24-25): swaps every double quote
with a single quote and vice versa. -/
def reverse_quotes (s : String) : String :=
  String.mk (s.data.map swapQuote)

/-- Characters the Python `shlex.quote` unsafe-character regex considers
safe: ASCII letters, digits, underscore, at sign, percent, plus, equals,
colon, comma, dot, slash and hyphen. -/
def shlexSafeChar (c : Char) : Bool :=
  c.isAlpha || c.isDigit || c == '_' || c == '@' || c == '%' || c == '+' ||
    c == '=' || c == ':' || c == ',' || c == '.' || c == '/' || c == '-'

/-- Character-wise form of Python `s.replace("\x27", "\x27\x22\x27\x22\x27")`
used inside `shlex.quote`: each single quote becomes the five-character
sequence quote, double quote, quote, double quote, quote. -/
def sqEscape : List Char → List Char
  | [] => []
  | c :: cs => (if c = sq then [sq, dq, sq, dq, sq] else [c]) ++ sqEscape cs

/-- Embeds Python `shlex.quote`: the empty string becomes a pair of quotes, a
string of safe characters is returned unchanged, and anything else is wrapped
in single quotes with embedded single quotes escaped. -/
def shlexQuote (s : String) : String :=
  if s.data = [] then String.mk [sq, sq]
  else if s.data.all shlexSafeChar then s
  else String.mk (sq :: sqEscape s.data ++ [sq])

/-- Embeds the rendering step of `CmdListener.exitVariable` (parser.py lines
160-173): a dict is rendered as its `str()` form with quotes swapped, then
shell-quoted when `quote_dict` is true; any other value is rendered with
`str()`. -/
def renderValue (quote_dict : Bool) (v : Value) : String :=
  if v.isDict then
    if quote_dict then shlexQuote (reverse_quotes (pyStr v))
    else reverse_quotes (pyStr v)
  else pyStr v

/-- State of the shell-unquoting scan: outside quotes, outside right after a
backslash, inside single quotes, inside double quotes, or inside double
quotes right after a backslash. -/
inductive QSt where
  | out
  | outEsc
  | inS
  | inD
  | inDEsc
deriving DecidableEq

/-- Modelled from the spec: removing one layer of shell quoting/escaping from
a single shell token (POSIX-style quoting: single-quoted spans are literal,
double-quoted spans allow backslash escapes of the double quote and
backslash, a bare backslash escapes the next character, and bare whitespace
or an unterminated quote or escape means the input is not a single token). -/
def unq : QSt → List Char → Option (List Char)
  | .out, [] => some []
  | .out, c :: cs =>
      if c = sq then unq .inS cs
      else if c = dq then unq .inD cs
      else if c = bsl then unq .outEsc cs
      else if isWS c then none
      else (unq .out cs).map (fun l => c :: l)
  | .outEsc, [] => none
  | .outEsc, d :: ds => (unq .out ds).map (fun l => d :: l)
  | .inS, [] => none
  | .inS, c :: cs =>
      if c = sq then unq .out cs
      else (unq .inS cs).map (fun l => c :: l)
  | .inD, [] => none
  | .inD, c :: cs =>
      if c = dq then unq .out cs
      else if c = bsl then unq .inDEsc cs
      else (unq .inD cs).map (fun l => c :: l)
  | .inDEsc, [] => none
  | .inDEsc, d :: ds =>
      if d = dq || d = bsl then (unq .inD ds).map (fun l => d :: l)
      else (unq .inD ds).map (fun l => bsl :: d :: l)

/-- Modelled from the spec: the result of removing one layer of shell
quoting/escaping from a string, or `none` when the string is not a single
well-formed shell token. -/
def shellUnquote (s : String) : Option String :=
  (unq .out s.data).map String.mk

/-- Embeds the text constructed and printed by `format_print_error`
(parser.py lines 82-129): the offending line truncated to `context_size`
characters on each side of the column with ellipsis markers, a caret aligned
under the column (offset adjusted for the added ellipsis prefix), the 1-based
column, and the message, with the rich markup the source embeds in the
f-string. -/
def format_print_error_text (line column : Nat) (error_line : String) (msg : String) : String :=
  let context_size := 50
  let start := column - context_size
  let stop := min error_line.data.length (column + context_size + 1)
  let context_line := String.mk ((error_line.data.drop start).take (stop - start))
  let context_line := if start > 0 then "..." ++ context_line else context_line
  let context_line := if stop < error_line.data.length then context_line ++ "..." else context_line
  let pointer_offset := column - start + (if start > 0 then 3 else 0)
  let pointer := String.mk (List.replicate pointer_offset ' ') ++ "[bright_red]^[/bright_red]"
  "Error when parsing command at line " ++ toString line ++ ", column " ++
    toString (column + 1) ++ ":\n[bold orange1]Err context:[/bold orange1] " ++
    context_line ++ "\n             " ++ pointer ++
    "  <-- [bold red]Error here[/bold red] (Column: " ++ toString (column + 1) ++
    ")\n[bold red]Error:[/bold red] " ++ msg ++ "\n"

/-- Helper for `pySplitlines`: accumulates the current line while scanning. -/
def splitLinesAux (cur : List Char) : List Char → List String
  | [] => if cur.isEmpty then [] else [String.mk cur]
  | c :: cs =>
      if c = nl then String.mk cur :: splitLinesAux [] cs
      else splitLinesAux (cur ++ [c]) cs

/-- Embeds Python `str.splitlines()` restricted to the newline separator: the
list of lines without their terminators, with no trailing empty line for a
trailing newline and no lines at all for the empty string. -/
def pySplitlines (s : String) : List String := splitLinesAux [] s.data

/-- Embeds `get_line_from_ctx` (parser.py lines 70-79): the 1-based source
line of the error, or a placeholder when out of range. -/
def get_line_from_lines (lines : List String) (line : Nat) : String :=
  if 1 ≤ line ∧ line ≤ lines.length then lines.getD (line - 1) ""
  else "<unknown line>"

/-- Embeds the offending-line lookup of `CustomErrorListener.syntaxError`
(parser.py lines 230-238), whose out-of-range fallback is the empty
string. -/
def get_error_line (lines : List String) (line : Nat) : String :=
  if 1 ≤ line ∧ line ≤ lines.length then lines.getD (line - 1) ""
  else ""

/-- One identifier of a placeholder path, with the 1-based line and 0-based
column of its first character (ANTLR token coordinates). -/
structure Ident where
  name : String
  line : Nat
  col : Nat
deriving DecidableEq

/-- Parsed command segment: a literal text run, or a placeholder reference
carrying its identifier path. -/
inductive Seg where
  | text (s : String)
  | ref (path : List Ident)
deriving DecidableEq

/-- Position and message of a syntax error reported by the parser. -/
structure SynErr where
  line : Nat
  col : Nat
  msg : String
deriving DecidableEq

/-- Parser state.  Modelled from the spec (sections 4.1-4.2): outside a
placeholder accumulating a text run, outside having just read a percent sign,
or inside a placeholder expecting an identifier, scanning one, or having just
finished one. -/
inductive PSt where
  | out (acc : List Char)
  | outPct (acc : List Char)
  | phExpIdent (ids : List Ident)
  | phInIdent (ids : List Ident) (idLine idCol : Nat) (idAcc : List Char)
  | phAfterIdent (ids : List Ident)

/-- Emits the accumulated text run as a segment (empty runs emit nothing). -/
def flushText (acc : List Char) : List Seg :=
  if acc.isEmpty then [] else [Seg.text (String.mk acc)]

/-- Syntax-error message for a stray character inside a placeholder. -/
def badCharMsg (c : Char) : String :=
  "token recognition error at: \x27" ++ String.mk [c] ++ "\x27"

/-- Modelled from the spec: the combined tokenizer and syntax parser of the
placeholder mini-language (the generated `LabCmdLexer`/`LabCmd` files are not
part of the repository checkout).  Outside a placeholder every character is
literal text until the exact two-character sequence percent-parenthesis;
inside, whitespace is discarded, identifiers are maximal runs of identifier
characters, dots separate path segments, the first closing parenthesis ends
the placeholder, any other character is a syntax error, and an unterminated
or empty placeholder is a syntax error.  Consumes exactly one character per
step; `line` is 1-based and `col` is 0-based for the next character. -/
def parseGo (line col : Nat) (segs : List Seg) (st : PSt) : List Char → Except SynErr (List Seg)
  | [] =>
    match st with
    | .out acc => .ok (segs ++ flushText acc)
    | .outPct acc => .ok (segs ++ flushText (acc ++ ['%']))
    | .phExpIdent _ => .error ⟨line, col, "missing \x27)\x27 at end of input"⟩
    | .phInIdent _ _ _ _ => .error ⟨line, col, "missing \x27)\x27 at end of input"⟩
    | .phAfterIdent _ => .error ⟨line, col, "missing \x27)\x27 at end of input"⟩
  | c :: cs =>
    let line' := if c = nl then line + 1 else line
    let col' := if c = nl then 0 else col + 1
    match st with
    | .out acc =>
      if c = '%' then parseGo line' col' segs (.outPct acc) cs
      else parseGo line' col' segs (.out (acc ++ [c])) cs
    | .outPct acc =>
      if c = '(' then parseGo line' col' (segs ++ flushText acc) (.phExpIdent []) cs
      else if c = '%' then parseGo line' col' segs (.outPct (acc ++ ['%'])) cs
      else parseGo line' col' segs (.out (acc ++ ['%', c])) cs
    | .phExpIdent ids =>
      if isWS c then parseGo line' col' segs (.phExpIdent ids) cs
      else if isIdentChar c then parseGo line' col' segs (.phInIdent ids line col [c]) cs
      else if c = ')' then .error ⟨line, col, "missing identifier"⟩
      else if c = '.' then .error ⟨line, col, "missing identifier"⟩
      else .error ⟨line, col, badCharMsg c⟩
    | .phInIdent ids l0 c0 idAcc =>
      if isIdentChar c then parseGo line' col' segs (.phInIdent ids l0 c0 (idAcc ++ [c])) cs
      else if isWS c then parseGo line' col' segs (.phAfterIdent (ids ++ [⟨String.mk idAcc, l0, c0⟩])) cs
      else if c = '.' then parseGo line' col' segs (.phExpIdent (ids ++ [⟨String.mk idAcc, l0, c0⟩])) cs
      else if c = ')' then parseGo line' col' (segs ++ [Seg.ref (ids ++ [⟨String.mk idAcc, l0, c0⟩])]) (.out []) cs
      else .error ⟨line, col, badCharMsg c⟩
    | .phAfterIdent ids =>
      if isWS c then parseGo line' col' segs (.phAfterIdent ids) cs
      else if c = '.' then parseGo line' col' segs (.phExpIdent ids) cs
      else if c = ')' then parseGo line' col' (segs ++ [Seg.ref ids]) (.out []) cs
      else .error ⟨line, col, badCharMsg c⟩

/-- Parses one input string into segments (entry point of the modelled
tokenizer and parser). -/
def parseCmd (s : String) : Except SynErr (List Seg) :=
  parseGo 1 0 [] (PSt.out []) s.data

/-- Structured errors raised by the engine: `CmdSyntaxError`, `CmdKeyError`,
`CmdTypeError` (all `CmdParserError` subclasses in
`labtasker/client/core/exceptions.py`), and the `RuntimeError` raised on
internal invariant violations.  The payload is the string the exception is
constructed with. -/
inductive CmdErr where
  | synError (msg : String)
  | keyError (msg : String)
  | typeError (msg : String)
  | runtimeError (msg : String)
deriving DecidableEq

/-- Sum view of `Except`, used to derive decidable equality of results. -/
def exceptToSum {ε α : Type} : Except ε α → ε ⊕ α
  | .error e => .inl e
  | .ok a => .inr a

instance {ε α : Type} [DecidableEq ε] [DecidableEq α] : DecidableEq (Except ε α) := fun x y =>
  decidable_of_iff (exceptToSum x = exceptToSum y) (by cases x <;> cases y <;> simp [exceptToSum])

/-- Payload string the error was raised with. -/
def CmdErr.payload : CmdErr → String
  | .synError m => m
  | .keyError m => m
  | .typeError m => m
  | .runtimeError m => m

/-- Embeds the message of `CmdKeyError` in `CmdListener.enterArgument`
(parser.py line 187). -/
def keyNotFoundMsg (k : String) (cur : Value) : String :=
  "Key \x27" ++ k ++ "\x27 not found in the current context " ++ pyStr cur

/-- Embeds the message of `CmdTypeError` in `CmdListener.enterArgument`
(parser.py line 199). -/
def notDictMsg (cur : Value) (k : String) : String :=
  "Expected a dictionary-like object, but got \x27" ++ pyTypeName cur ++
    "\x27 for context \x27" ++ k ++ "\x27."

/-- Embeds the mutable fields of `CmdListener` (parser.py lines 132-141):
the caller-supplied variable table and quote flag, the accumulated output
string, the set of involved keys, and the current resolution cursor
(`self.variable`). -/
structure ListenerState where
  variable_table : Value
  quote_dict : Bool
  result_str : String
  args : Finset String
  self_variable : Option Value
deriving DecidableEq

/-- Dot-joined path text, as produced by `ctx.getText()` on an
`argumentList` context (whitespace tokens are on the lexer's skip channel,
so the text is exactly the identifiers joined by dots). -/
def keyOf : List Ident → String
  | [] => ""
  | [i] => i.name
  | i :: j :: is => i.name ++ "." ++ keyOf (j :: is)

/-- Embeds the per-identifier resolution loop of `CmdListener.enterArgument`
(parser.py lines 179-207), iterated over the identifiers of one placeholder:
`cur.get(name)` yields `None` both for an absent key and for a key bound to
`None`, and either case raises `CmdKeyError`; calling `.get` on a non-dict
raises `AttributeError`, turned into `CmdTypeError`.  Both failures first
print a formatted diagnostic (returned here as the log component) built from
the failing identifier's own line and column. -/
def resolveGo (lines : List String) : Value → List Ident → (List String) × Except CmdErr Value
  | cur, [] => ([], .ok cur)
  | cur, id :: rest =>
    if cur.isDict then
      let v := (dictGet cur id.name).getD Value.null
      if v.isNull then
        let msg := keyNotFoundMsg id.name cur
        ([format_print_error_text id.line id.col (get_line_from_lines lines id.line) msg],
         .error (.keyError msg))
      else resolveGo lines v rest
    else
      let msg := notDictMsg cur id.name
      ([format_print_error_text id.line id.col (get_line_from_lines lines id.line) msg],
       .error (.typeError msg))

/-- Embeds the tree walk of `ParseTreeWalker.walk` over `CmdListener` on a
parsed command: per text segment `exitText` appends the literal text; per
placeholder `enterArgumentList` records the dot-joined path in `args`, the
`enterArgument` calls resolve the path (starting from the table because
`exitVariable` reset `self.variable` to `None`), and `exitVariable` appends
the rendering of the resolved value and resets the cursor.  A placeholder
with no identifiers would leave `self.variable` as `None` and raise
`RuntimeError`.  The first component collects the diagnostics printed to the
stderr console. -/
def walkSegs (lines : List String) (st : ListenerState) : List Seg → (List String) × Except CmdErr ListenerState
  | [] => ([], .ok st)
  | Seg.text s :: rest => walkSegs lines { st with result_str := st.result_str ++ s } rest
  | Seg.ref path :: rest =>
    let st1 := { st with args := insert (keyOf path) st.args }
    match path with
    | [] => ([], .error (.runtimeError "Variable not found in context"))
    | _ :: _ =>
      match resolveGo lines st1.variable_table path with
      | (lg, .error e) => (lg, .error e)
      | (lg, .ok v) =>
        let st2 := { st1 with
          result_str := st1.result_str ++ renderValue st1.quote_dict v,
          self_variable := none }
        let next := walkSegs lines st2 rest
        (lg ++ next.1, next.2)

/-- Embeds `interpolate_str` (parser.py lines 278-313): parse the input; a
syntax error is formatted by `CustomErrorListener.syntaxError` (printed to
the stderr console, collected here as the log component) and raised as
`CmdSyntaxError` carrying only the message; otherwise the listener walks the
tree and the accumulated output string and involved-keys set are returned. -/
def interpolate_str (input_str : String) (variable_table : Value) (quote_dict : Bool) :
    (List String) × Except CmdErr (String × Finset String) :=
  let lines := pySplitlines input_str
  match parseCmd input_str with
  | .error se =>
      ([format_print_error_text se.line se.col (get_error_line lines se.line) se.msg],
       .error (.synError se.msg))
  | .ok segs =>
      match walkSegs lines (ListenerState.mk variable_table quote_dict "" ∅ none) segs with
      | (lg, .error e) => (lg, .error e)
      | (lg, .ok st) => (lg, .ok (st.result_str, st.args))

/-- Embeds the loop of `cmd_interpolate`'s list branch (parser.py lines
264-275): interpolate each word with `quote_dict=False`, appending outputs in
order and unioning the involved-key sets; a failing word's exception
propagates uncaught. -/
def cmdGo (t : Value) (accCmd : List String) (accKeys : Finset String) :
    List String → (List String) × Except CmdErr (List String × Finset String)
  | [] => ([], .ok (accCmd, accKeys))
  | c :: rest =>
    match interpolate_str c t false with
    | (lg, .error e) => (lg, .error e)
    | (lg, .ok (s, ks)) =>
      let next := cmdGo t (accCmd ++ [s]) (accKeys ∪ ks) rest
      (lg ++ next.1, next.2)

/-- Embeds `cmd_interpolate` (parser.py lines 241-275) applied to a list of
words (the non-deprecated branch). -/
def cmd_interpolate (cmd : List String) (variable_table : Value) :
    (List String) × Except CmdErr (List String × Finset String) :=
  cmdGo variable_table [] ∅ cmd

/-- Dot-joined keys of the placeholder segments of a command, with set
semantics (duplicates collapse). -/
def segKeys : List Seg → Finset String
  | [] => ∅
  | Seg.text _ :: rest => segKeys rest
  | Seg.ref p :: rest => insert (keyOf p) (segKeys rest)

/-- Whether the character list contains the two-character placeholder opener
(a percent sign immediately followed by an opening parenthesis). -/
def hasPHSeq : List Char → Bool
  | [] => false
  | c :: cs => ((c == '%') && (cs.head? == some '(')) || hasPHSeq cs

/-- Hypothesis predicate for claim C1 (amended): walks a dotted path through
dict values, requiring every identifier to be a present key bound to a
non-null value, and returns the value reached. -/
def walkNonNull : Value → List String → Option Value
  | v, [] => some v
  | cur, k :: ks =>
      if cur.isDict then
        match dictGet cur k with
        | some v => if v.isNull then none else walkNonNull v ks
        | none => none
      else none

/-- A well-formed parsed identifier: nonempty and made of identifier
characters only. -/
def goodIdent (i : Ident) : Prop :=
  i.name.data ≠ [] ∧ ∀ ch ∈ i.name.data, isIdentChar ch = true

/-- A well-formed parsed segment: placeholder paths are nonempty and made of
well-formed identifiers. -/
def goodSeg : Seg → Prop
  | Seg.text _ => True
  | Seg.ref p => p ≠ [] ∧ ∀ i ∈ p, goodIdent i

/-- Invariant on parser states used to prove segment well-formedness. -/
def stGood : PSt → Prop
  | PSt.out _ => True
  | PSt.outPct _ => True
  | PSt.phExpIdent ids => ∀ i ∈ ids, goodIdent i
  | PSt.phInIdent ids _ _ idAcc =>
      (∀ i ∈ ids, goodIdent i) ∧ idAcc ≠ [] ∧ ∀ ch ∈ idAcc, isIdentChar ch = true
  | PSt.phAfterIdent ids => ids ≠ [] ∧ ∀ i ∈ ids, goodIdent i

/-- Whether an interpolation outcome is a success. -/
def exOk : Except CmdErr (String × Finset String) → Bool
  | .ok _ => true
  | .error _ => false

/-- Output string of a successful interpolation outcome (empty on error). -/
def okOut : Except CmdErr (String × Finset String) → String
  | .ok p => p.1
  | .error _ => ""

/-- Involved-keys set of a successful interpolation outcome (empty on
error). -/
def okKeys : Except CmdErr (String × Finset String) → Finset String
  | .ok p => p.2
  | .error _ => ∅

theorem str_data_append : ∀ (a b : String), (a ++ b).data = a.data ++ b.data
  | ⟨_⟩, ⟨_⟩ => rfl

theorem str_mk_data (s : String) : String.mk s.data = s := rfl

theorem parseGo_noPH : ∀ (cs : List Char) (line col : Nat) (segs : List Seg) (acc : List Char),
    hasPHSeq cs = false →
    parseGo line col segs (PSt.out acc) cs = .ok (segs ++ flushText (acc ++ cs)) ∧
    (cs.head? ≠ some '(' →
      parseGo line col segs (PSt.outPct acc) cs = .ok (segs ++ flushText (acc ++ '%' :: cs))) := by
  intro cs
  induction cs with
  | nil =>
    intro line col segs acc h
    exact ⟨by simp [parseGo], fun _ => by simp [parseGo]⟩
  | cons c cs ih =>
    intro line col segs acc h
    rw [hasPHSeq] at h
    simp only [Bool.or_eq_false_iff, Bool.and_eq_false_iff, beq_eq_false_iff_ne, ne_eq] at h
    obtain ⟨h1, h2⟩ := h
    constructor
    · by_cases hc : c = '%'
      · subst hc
        have hhd : cs.head? ≠ some '(' := by
          rcases h1 with h1 | h1
          · exact absurd rfl h1
          · exact h1
        simp only [parseGo, if_pos rfl]
        exact (ih _ _ segs acc h2).2 hhd
      · simp only [parseGo, if_neg hc]
        rw [(ih _ _ segs (acc ++ [c]) h2).1, List.append_assoc]
        rfl
    · intro hpar
      have hcp : c ≠ '(' := by
        intro hc
        exact hpar (by rw [hc]; rfl)
      by_cases hc : c = '%'
      · subst hc
        have hhd : cs.head? ≠ some '(' := by
          rcases h1 with h1 | h1
          · exact absurd rfl h1
          · exact h1
        simp only [parseGo, if_neg hcp, if_pos rfl]
        rw [(ih _ _ segs (acc ++ ['%']) h2).2 hhd, List.append_assoc]
        rfl
      · simp only [parseGo, if_neg hcp, if_neg hc]
        rw [(ih _ _ segs (acc ++ ['%', c]) h2).1, List.append_assoc]
        rfl

theorem empty_append_str (s : String) : "" ++ s = s := rfl

/-- Claim C6: for every input string that contains no occurrence of the
two-character sequence percent-parenthesis, single-string interpolation
succeeds, the output string equals the input string exactly, and the
involved-keys set is empty, for every variable table and either value of
`quote_dict`. -/
theorem identity_without_placeholders (s : String) (t : Value) (q : Bool)
    (h : hasPHSeq s.data = false) :
    interpolate_str s t q = ([], .ok (s, ∅)) := by
  have hp : parseCmd s = .ok (flushText s.data) := by
    have := (parseGo_noPH s.data 1 0 [] [] h).1
    simpa [parseCmd] using this
  by_cases hd : s.data.isEmpty
  · have hs : s = "" := by
      rcases s with ⟨d⟩
      cases d with
      | nil => rfl
      | cons a l => simp [List.isEmpty] at hd
    subst hs
    rfl
  · simp only [interpolate_str, hp, flushText, if_neg hd, walkSegs]
    rw [empty_append_str, str_mk_data]

/-- Witness for claim C6 at a concrete placeholder-free input. -/
theorem identity_without_placeholders_witness :
    hasPHSeq ("run --lr 0.1 100%").data = false ∧
    interpolate_str "run --lr 0.1 100%" (Value.dictCons "a" Value.null Value.dictNil) true =
      ([], .ok ("run --lr 0.1 100%", ∅)) :=
  ⟨by decide, identity_without_placeholders _ _ _ (by decide)⟩

theorem flushText_good (acc : List Char) : ∀ s ∈ flushText acc, goodSeg s := by
  intro s hs
  unfold flushText at hs
  split at hs
  · simp at hs
  · rw [List.mem_singleton] at hs
    subst hs
    exact trivial

theorem parseGo_good : ∀ (cs : List Char) (line col : Nat) (segs : List Seg) (st : PSt)
    (segs' : List Seg),
    (∀ s ∈ segs, goodSeg s) → stGood st →
    parseGo line col segs st cs = .ok segs' →
    ∀ s ∈ segs', goodSeg s := by
  intro cs
  induction cs with
  | nil =>
    intro line col segs st segs' hsegs hst h
    cases st with
    | out acc =>
      simp only [parseGo] at h
      injection h with h
      subst h
      intro s hs
      rcases List.mem_append.mp hs with hs | hs
      · exact hsegs s hs
      · exact flushText_good _ s hs
    | outPct acc =>
      simp only [parseGo] at h
      injection h with h
      subst h
      intro s hs
      rcases List.mem_append.mp hs with hs | hs
      · exact hsegs s hs
      · exact flushText_good _ s hs
    | phExpIdent ids => simp [parseGo] at h
    | phInIdent ids l0 c0 idAcc => simp [parseGo] at h
    | phAfterIdent ids => simp [parseGo] at h
  | cons c cs ih =>
    intro line col segs st segs' hsegs hst h
    cases st with
    | out acc =>
      simp only [parseGo] at h
      split at h
      · refine ih _ _ _ _ _ hsegs ?_ h
        exact trivial
      · refine ih _ _ _ _ _ hsegs ?_ h
        exact trivial
    | outPct acc =>
      simp only [parseGo] at h
      split at h
      · refine ih _ _ _ _ _ ?_ ?_ h
        · intro s hs
          rcases List.mem_append.mp hs with hs | hs
          · exact hsegs s hs
          · exact flushText_good _ s hs
        · intro i hi
          exact absurd hi (List.not_mem_nil i)
      · split at h
        · refine ih _ _ _ _ _ hsegs ?_ h
          exact trivial
        · refine ih _ _ _ _ _ hsegs ?_ h
          exact trivial
    | phExpIdent ids =>
      simp only [parseGo] at h
      by_cases h1 : isWS c = true
      · rw [if_pos h1] at h
        exact ih _ _ _ _ _ hsegs hst h
      · rw [if_neg h1] at h
        by_cases h2 : isIdentChar c = true
        · rw [if_pos h2] at h
          refine ih _ _ _ _ _ hsegs ?_ h
          refine ⟨hst, by simp, ?_⟩
          intro ch hch
          rw [List.mem_singleton] at hch
          subst hch
          exact h2
        · rw [if_neg h2] at h
          by_cases h3 : c = ')'
          · rw [if_pos h3] at h
            simp at h
          · rw [if_neg h3] at h
            by_cases h4 : c = '.'
            · rw [if_pos h4] at h
              simp at h
            · rw [if_neg h4] at h
              simp at h
    | phInIdent ids l0 c0 idAcc =>
      obtain ⟨hids, hne, hchars⟩ := hst
      simp only [parseGo] at h
      by_cases h1 : isIdentChar c = true
      · rw [if_pos h1] at h
        refine ih _ _ _ _ _ hsegs ?_ h
        refine ⟨hids, by simp, ?_⟩
        intro ch hch
        rcases List.mem_append.mp hch with hch | hch
        · exact hchars ch hch
        · rw [List.mem_singleton] at hch
          subst hch
          exact h1
      · rw [if_neg h1] at h
        by_cases h2 : isWS c = true
        · rw [if_pos h2] at h
          refine ih _ _ _ _ _ hsegs ?_ h
          refine ⟨by simp, ?_⟩
          intro i hi
          rcases List.mem_append.mp hi with hi | hi
          · exact hids i hi
          · rw [List.mem_singleton] at hi
            subst hi
            exact ⟨hne, hchars⟩
        · rw [if_neg h2] at h
          by_cases h3 : c = '.'
          · rw [if_pos h3] at h
            refine ih _ _ _ _ _ hsegs ?_ h
            intro i hi
            rcases List.mem_append.mp hi with hi | hi
            · exact hids i hi
            · rw [List.mem_singleton] at hi
              subst hi
              exact ⟨hne, hchars⟩
          · rw [if_neg h3] at h
            by_cases h4 : c = ')'
            · rw [if_pos h4] at h
              refine ih _ _ _ _ _ ?_ ?_ h
              · intro s hs
                rcases List.mem_append.mp hs with hs | hs
                · exact hsegs s hs
                · rw [List.mem_singleton] at hs
                  subst hs
                  refine ⟨by simp, ?_⟩
                  intro i hi
                  rcases List.mem_append.mp hi with hi | hi
                  · exact hids i hi
                  · rw [List.mem_singleton] at hi
                    subst hi
                    exact ⟨hne, hchars⟩
              · exact trivial
            · rw [if_neg h4] at h
              simp at h
    | phAfterIdent ids =>
      obtain ⟨hne, hids⟩ := hst
      simp only [parseGo] at h
      by_cases h1 : isWS c = true
      · rw [if_pos h1] at h
        refine ih _ _ _ _ _ hsegs ?_ h
        exact ⟨hne, hids⟩
      · rw [if_neg h1] at h
        by_cases h2 : c = '.'
        · rw [if_pos h2] at h
          refine ih _ _ _ _ _ hsegs ?_ h
          exact hids
        · rw [if_neg h2] at h
          by_cases h3 : c = ')'
          · rw [if_pos h3] at h
            refine ih _ _ _ _ _ ?_ ?_ h
            · intro s hs
              rcases List.mem_append.mp hs with hs | hs
              · exact hsegs s hs
              · rw [List.mem_singleton] at hs
                subst hs
                exact ⟨hne, hids⟩
            · exact trivial
          · rw [if_neg h3] at h
            simp at h

theorem parseCmd_good (s : String) (segs : List Seg) (h : parseCmd s = .ok segs) :
    ∀ sg ∈ segs, goodSeg sg :=
  parseGo_good s.data 1 0 [] (PSt.out []) segs (by simp) trivial h

theorem resolveGo_ok_log : ∀ (path : List Ident) (lines : List String) (cur : Value)
    (lg : List String) (v : Value),
    resolveGo lines cur path = (lg, .ok v) → lg = [] := by
  intro path
  induction path with
  | nil =>
    intro lines cur lg v h
    injection h with h1 h2
    exact h1.symm
  | cons id rest ih =>
    intro lines cur lg v h
    simp only [resolveGo] at h
    by_cases h1 : cur.isDict = true
    · rw [if_pos h1] at h
      by_cases h2 : ((dictGet cur id.name).getD Value.null).isNull = true
      · rw [if_pos h2] at h
        injection h with h1' h2'
        simp at h2'
      · rw [if_neg h2] at h
        exact ih _ _ _ _ h
    · rw [if_neg h1] at h
      injection h with h1' h2'
      simp at h2'

theorem resolveGo_err_shape : ∀ (path : List Ident) (lines : List String) (cur : Value)
    (lg : List String) (e : CmdErr),
    resolveGo lines cur path = (lg, .error e) →
    ∃ l c el msg, lg = [format_print_error_text l c el msg] ∧ e.payload = msg := by
  intro path
  induction path with
  | nil =>
    intro lines cur lg e h
    injection h with h1 h2
    simp at h2
  | cons id rest ih =>
    intro lines cur lg e h
    simp only [resolveGo] at h
    by_cases h1 : cur.isDict = true
    · rw [if_pos h1] at h
      by_cases h2 : ((dictGet cur id.name).getD Value.null).isNull = true
      · rw [if_pos h2] at h
        injection h with hl he
        injection he with he
        refine ⟨id.line, id.col, get_line_from_lines lines id.line, keyNotFoundMsg id.name cur,
          hl.symm, ?_⟩
        rw [← he]
        rfl
      · rw [if_neg h2] at h
        exact ih _ _ _ _ h
    · rw [if_neg h1] at h
      injection h with hl he
      injection he with he
      refine ⟨id.line, id.col, get_line_from_lines lines id.line, notDictMsg cur id.name,
        hl.symm, ?_⟩
      rw [← he]
      rfl

theorem walkSegs_ok_state : ∀ (segs : List Seg) (lines : List String) (st : ListenerState)
    (st' : ListenerState),
    (walkSegs lines st segs).2 = .ok st' →
    st'.args = st.args ∪ segKeys segs ∧ st'.variable_table = st.variable_table := by
  intro segs
  induction segs with
  | nil =>
    intro lines st st' h
    simp only [walkSegs] at h
    injection h with h
    subst h
    exact ⟨by simp [segKeys], rfl⟩
  | cons sg rest ih =>
    intro lines st st' h
    cases sg with
    | text s =>
      simp only [walkSegs] at h
      obtain ⟨ha, ht⟩ := ih _ _ _ h
      exact ⟨ha, ht⟩
    | ref p =>
      cases p with
      | nil =>
        simp only [walkSegs] at h
        simp at h
      | cons i is =>
        simp only [walkSegs] at h
        split at h
        · simp at h
        · next lg0 v heq =>
            obtain ⟨ha, ht⟩ := ih _ _ _ h
            refine ⟨?_, ht⟩
            rw [ha]
            simp [segKeys, Finset.insert_union, Finset.union_insert]

theorem walkSegs_err_shape : ∀ (segs : List Seg) (lines : List String) (st : ListenerState)
    (e : CmdErr),
    (∀ s ∈ segs, goodSeg s) →
    (walkSegs lines st segs).2 = .error e →
    ∃ l c el msg, (walkSegs lines st segs).1 = [format_print_error_text l c el msg] ∧
      e.payload = msg := by
  intro segs
  induction segs with
  | nil =>
    intro lines st e hg h
    simp [walkSegs] at h
  | cons sg rest ih =>
    intro lines st e hg h
    cases sg with
    | text s =>
      simp only [walkSegs] at h ⊢
      exact ih _ _ _ (fun x hx => hg x (List.mem_cons_of_mem _ hx)) h
    | ref p =>
      obtain ⟨hne, hids⟩ := hg (Seg.ref p) (List.mem_cons_self _ _)
      cases p with
      | nil => exact absurd rfl hne
      | cons i is =>
        simp only [walkSegs] at h ⊢
        split at h
        · next lg0 e0 heq =>
          injection h with h
          subst h
          obtain ⟨l, c, el, msg, h1, h2⟩ := resolveGo_err_shape _ _ _ _ _ heq
          exact ⟨l, c, el, msg, h1, h2⟩
        · next lg0 v heq =>
          have hlg0 : lg0 = [] := resolveGo_ok_log _ _ _ _ _ heq
          subst hlg0
          obtain ⟨l, c, el, msg, h1, h2⟩ :=
            ih _ _ _ (fun x hx => hg x (List.mem_cons_of_mem _ hx)) h
          exact ⟨l, c, el, msg, h1, h2⟩

/-- Claim C2 (amended): on every failing call the formatted diagnostic text
(line, 1-based column, bounded context snippet, caret, message) is printed
to the stderr console at the point of detection, while the raised structured
error carries as payload only the plain detection message (the last
component of the diagnostic), not the formatted text. -/
theorem error_payload_is_plain_message (s : String) (t : Value) (q : Bool)
    (log : List String) (e : CmdErr)
    (h : interpolate_str s t q = (log, .error e)) :
    ∃ l c el msg, log = [format_print_error_text l c el msg] ∧ e.payload = msg := by
  rcases hp : parseCmd s with se | segs
  · simp only [interpolate_str, hp] at h
    injection h with h1 h2
    injection h2 with h2
    refine ⟨se.line, se.col, get_error_line (pySplitlines s) se.line, se.msg, h1.symm, ?_⟩
    rw [← h2]
    rfl
  · simp only [interpolate_str, hp] at h
    rcases hw : walkSegs (pySplitlines s) (ListenerState.mk t q "" ∅ none) segs with ⟨lg, r⟩
    rw [hw] at h
    cases r with
    | error e0 =>
      injection h with h1 h2
      injection h2 with h2
      subst h2
      have hsnd : (walkSegs (pySplitlines s) (ListenerState.mk t q "" ∅ none) segs).2 =
          .error e0 := by rw [hw]
      obtain ⟨l, c, el, msg, hl, hm⟩ :=
        walkSegs_err_shape segs _ _ _ (parseCmd_good s segs hp) hsnd
      refine ⟨l, c, el, msg, ?_, hm⟩
      rw [← h1, ← hl, hw]
    | ok st' =>
      injection h with h1 h2
      simp at h2

set_option maxRecDepth 8192 in
/-- Counterexample to claim C2 as stated: for the failing input
`%(missing)` with an empty table, the raised error's payload is the bare
key-not-found message, which contains no caret and no newline, while the
full formatted diagnostic (with the caret) is only printed to the stderr
console (the log component). -/
theorem diagnostic_not_in_payload :
    interpolate_str "%(missing)" Value.dictNil true =
      ([format_print_error_text 1 2 "%(missing)" (keyNotFoundMsg "missing" Value.dictNil)],
       .error (.keyError (keyNotFoundMsg "missing" Value.dictNil))) ∧
    ('^' ∈ (format_print_error_text 1 2 "%(missing)" (keyNotFoundMsg "missing" Value.dictNil)).data) ∧
    (∀ ch ∈ (keyNotFoundMsg "missing" Value.dictNil).data, ch ≠ '^' ∧ ch ≠ nl) := by
  refine ⟨by decide, by decide, by decide⟩

set_option maxRecDepth 8192 in
/-- Witness for the amended claim C2 at the concrete failing input
`%(missing)` with an empty table. -/
theorem error_payload_is_plain_message_witness :
    ∃ l c el msg,
      [format_print_error_text 1 2 "%(missing)" (keyNotFoundMsg "missing" Value.dictNil)] =
        [format_print_error_text l c el msg] ∧
      (CmdErr.keyError (keyNotFoundMsg "missing" Value.dictNil)).payload = msg :=
  error_payload_is_plain_message "%(missing)" Value.dictNil true _ _ (by decide)

/-- Claim C9: the engine only reads the caller-supplied variable table: the
listener state reached by any successful walk carries the same
`variable_table` value it started with (every callback only reads the
table, none writes it). -/
theorem variable_table_immutable (lines : List String) (st st' : ListenerState)
    (segs : List Seg) (h : (walkSegs lines st segs).2 = .ok st') :
    st'.variable_table = st.variable_table :=
  (walkSegs_ok_state segs lines st st' h).2

/-- Witness for claim C9 on a concrete walk. -/
theorem variable_table_immutable_witness :
    (ListenerState.mk (Value.dictCons "a" (Value.str "v") Value.dictNil) true "x" ∅ none).variable_table =
      (ListenerState.mk (Value.dictCons "a" (Value.str "v") Value.dictNil) true "" ∅ none).variable_table :=
  variable_table_immutable ["x"]
    (ListenerState.mk (Value.dictCons "a" (Value.str "v") Value.dictNil) true "" ∅ none)
    (ListenerState.mk (Value.dictCons "a" (Value.str "v") Value.dictNil) true "x" ∅ none)
    [Seg.text "x"] rfl

theorem isIdentChar_not_WS (c : Char) (h : isIdentChar c = true) : isWS c = false := by
  have e1 : (c == ' ') = false := by
    rw [beq_eq_false_iff_ne]
    intro hc
    subst hc
    exact absurd h (by decide)
  have e2 : (c == tabC) = false := by
    rw [beq_eq_false_iff_ne]
    intro hc
    subst hc
    exact absurd h (by decide)
  have e3 : (c == crC) = false := by
    rw [beq_eq_false_iff_ne]
    intro hc
    subst hc
    exact absurd h (by decide)
  have e4 : (c == nl) = false := by
    rw [beq_eq_false_iff_ne]
    intro hc
    subst hc
    exact absurd h (by decide)
  unfold isWS
  rw [e1, e2, e3, e4]
  rfl

theorem keyOf_chars : ∀ (p : List Ident) (ch : Char), ch ∈ (keyOf p).data →
    ch = '.' ∨ ∃ i ∈ p, ch ∈ i.name.data := by
  intro p
  induction p with
  | nil =>
    intro ch hch
    simp [keyOf] at hch
  | cons i rest ih =>
    intro ch hch
    cases rest with
    | nil =>
      right
      exact ⟨i, by simp, by simpa [keyOf] using hch⟩
    | cons j js =>
      rw [keyOf, str_data_append, str_data_append] at hch
      rcases List.mem_append.mp hch with hch | hch
      · rcases List.mem_append.mp hch with hch | hch
        · exact Or.inr ⟨i, List.mem_cons_self _ _, hch⟩
        · left
          simpa using hch
      · rcases ih ch hch with hch | ⟨i', hi', hchi⟩
        · exact Or.inl hch
        · exact Or.inr ⟨i', List.mem_cons_of_mem _ hi', hchi⟩

theorem segKeys_mem : ∀ (segs : List Seg) (k : String), k ∈ segKeys segs →
    ∃ p, Seg.ref p ∈ segs ∧ k = keyOf p := by
  intro segs
  induction segs with
  | nil =>
    intro k hk
    simp [segKeys] at hk
  | cons sg rest ih =>
    intro k hk
    cases sg with
    | text s =>
      simp only [segKeys] at hk
      obtain ⟨p, hp, hkp⟩ := ih k hk
      exact ⟨p, List.mem_cons_of_mem _ hp, hkp⟩
    | ref p0 =>
      simp only [segKeys] at hk
      rcases Finset.mem_insert.mp hk with hk | hk
      · exact ⟨p0, List.mem_cons_self _ _, hk⟩
      · obtain ⟨p, hp, hkp⟩ := ih k hk
        exact ⟨p, List.mem_cons_of_mem _ hp, hkp⟩

/-- Claim C3: for every successfully interpolated input the involved-keys
set is exactly the set of dot-joined placeholder paths of the parsed command
(one entry per distinct path, duplicates collapsing by set semantics), and
every entry is whitespace-free. -/
theorem involved_keys_canonical (s : String) (t : Value) (q : Bool)
    (log : List String) (out : String) (keys : Finset String)
    (h : interpolate_str s t q = (log, .ok (out, keys))) :
    ∃ segs, parseCmd s = .ok segs ∧ keys = segKeys segs ∧
      (∀ k ∈ keys, ∃ p, Seg.ref p ∈ segs ∧ k = keyOf p) ∧
      (∀ k ∈ keys, ∀ ch ∈ k.data, isWS ch = false) := by
  rcases hp : parseCmd s with se | segs
  · simp only [interpolate_str, hp] at h
    injection h with h1 h2
    simp at h2
  · simp only [interpolate_str, hp] at h
    rcases hw : walkSegs (pySplitlines s) (ListenerState.mk t q "" ∅ none) segs with ⟨lg, r⟩
    rw [hw] at h
    cases r with
    | error e =>
      injection h with h1 h2
      simp at h2
    | ok st' =>
      injection h with h1 h2
      injection h2 with h2
      injection h2 with hout hkeys
      have hsnd : (walkSegs (pySplitlines s) (ListenerState.mk t q "" ∅ none) segs).2 =
          .ok st' := by rw [hw]
      have hargs := (walkSegs_ok_state segs _ _ _ hsnd).1
      have hkeq : keys = segKeys segs := by
        rw [← hkeys, hargs]
        exact Finset.empty_union _
      have hgood := parseCmd_good s segs hp
      refine ⟨segs, rfl, hkeq, ?_, ?_⟩
      · intro k hk
        exact segKeys_mem segs k (hkeq ▸ hk)
      · intro k hk ch hch
        obtain ⟨p, hpmem, hkp⟩ := segKeys_mem segs k (hkeq ▸ hk)
        subst hkp
        rcases keyOf_chars p ch hch with hdot | ⟨i, hi, hchi⟩
        · subst hdot
          decide
        · obtain ⟨hne', hidchars⟩ := (hgood (Seg.ref p) hpmem).2 i hi
          exact isIdentChar_not_WS ch (hidchars ch hchi)

/-- Witness for claim C3 at the spec's concrete example `%( a .e)`. -/
theorem involved_keys_canonical_witness :
    ∃ segs, parseCmd "%( a .e)" = .ok segs ∧
      (insert "a.e" (∅ : Finset String)) = segKeys segs ∧
      (∀ k ∈ (insert "a.e" (∅ : Finset String)), ∃ p, Seg.ref p ∈ segs ∧ k = keyOf p) ∧
      (∀ k ∈ (insert "a.e" (∅ : Finset String)), ∀ ch ∈ k.data, isWS ch = false) :=
  involved_keys_canonical "%( a .e)"
    (Value.dictCons "a" (Value.dictCons "e" (Value.str "fcc") Value.dictNil) Value.dictNil)
    false [] "fcc" (insert "a.e" ∅) (by decide)

/-- Claim C1 (amended): for every placeholder path and every variable table
in which the first identifier maps to a value and each subsequent identifier
is a key of the mapping reached, the resolver walks the identifiers left to
right and returns the nested value reached after the last identifier with no
error and no diagnostic — provided no step's value is the null scalar (a
null value raises a key-not-found error, see the counterexample). -/
theorem resolve_fully_present_nonnull (lines : List String) (cur : Value) (path : List Ident)
    (v : Value) (h : walkNonNull cur (path.map Ident.name) = some v) :
    resolveGo lines cur path = ([], .ok v) := by
  induction path generalizing cur with
  | nil =>
    simp only [List.map, walkNonNull] at h
    injection h with h
    subst h
    rfl
  | cons i rest ih =>
    simp only [List.map, walkNonNull] at h
    by_cases h1 : cur.isDict = true
    · rw [if_pos h1] at h
      rcases hg : dictGet cur i.name with _ | w
      · rw [hg] at h
        simp at h
      · rw [hg] at h
        dsimp only at h
        by_cases h2 : w.isNull = true
        · rw [if_pos h2] at h
          simp at h
        · rw [if_neg h2] at h
          simp only [resolveGo]
          rw [if_pos h1, hg]
          simp only [Option.getD_some]
          rw [if_neg h2]
          exact ih w h
    · rw [if_neg h1] at h
      simp at h

/-- Counterexample to claim C1 as stated: the path `a` is fully present in
the table mapping `a` to the null scalar, yet interpolation raises a
key-not-found error instead of rendering the null value. -/
theorem null_path_resolution_fails :
    dictGet (Value.dictCons "a" Value.null Value.dictNil) "a" = some Value.null ∧
    (interpolate_str "%(a)" (Value.dictCons "a" Value.null Value.dictNil) true).2 =
      .error (.keyError (keyNotFoundMsg "a" (Value.dictCons "a" Value.null Value.dictNil))) := by
  refine ⟨by decide, by decide⟩

/-- Witness for the amended claim C1 on a concrete two-step path. -/
theorem resolve_fully_present_nonnull_witness :
    walkNonNull
        (Value.dictCons "a" (Value.dictCons "b" (Value.str "v1") Value.dictNil) Value.dictNil)
        ([Ident.mk "a" 1 2, Ident.mk "b" 1 4].map Ident.name) = some (Value.str "v1") ∧
    resolveGo []
        (Value.dictCons "a" (Value.dictCons "b" (Value.str "v1") Value.dictNil) Value.dictNil)
        [Ident.mk "a" 1 2, Ident.mk "b" 1 4] = ([], .ok (Value.str "v1")) :=
  ⟨by decide, resolve_fully_present_nonnull _ _ _ _ (by decide)⟩

/-- Claim C10: when the next identifier of a path is present in the current
mapping but bound to the null scalar, resolution raises exactly the same
key-not-found error (message and printed diagnostic included, both computed
from the same expressions) as when the key is absent, so a null value is
indistinguishable from a missing key. -/
theorem null_indistinguishable_from_missing (lines : List String) (m : Value) (k : String)
    (l c : Nat) (rest : List Ident) (hdict : m.isDict = true)
    (h : dictGet m k = some Value.null ∨ dictGet m k = none) :
    resolveGo lines m (Ident.mk k l c :: rest) =
      ([format_print_error_text l c (get_line_from_lines lines l) (keyNotFoundMsg k m)],
       .error (.keyError (keyNotFoundMsg k m))) := by
  simp only [resolveGo]
  rw [if_pos hdict]
  rcases h with h | h <;> rw [h] <;> rfl

/-- Witness for claim C10: the key `k` present but bound to null, and the
key `j` absent, both produce the key-not-found outcome. -/
theorem null_indistinguishable_from_missing_witness :
    resolveGo ["%(k)"] (Value.dictCons "k" Value.null Value.dictNil) [Ident.mk "k" 1 2] =
      ([format_print_error_text 1 2 (get_line_from_lines ["%(k)"] 1)
          (keyNotFoundMsg "k" (Value.dictCons "k" Value.null Value.dictNil))],
       .error (.keyError (keyNotFoundMsg "k" (Value.dictCons "k" Value.null Value.dictNil)))) :=
  null_indistinguishable_from_missing ["%(k)"] (Value.dictCons "k" Value.null Value.dictNil)
    "k" 1 2 [] (by decide) (Or.inl (by decide))

theorem cmdGo_all_ok : ∀ (ws : List String) (t : Value) (accC : List String)
    (accK : Finset String),
    (∀ w ∈ ws, exOk ((interpolate_str w t false).2) = true) →
    (cmdGo t accC accK ws).2 =
      .ok (accC ++ ws.map (fun w => okOut ((interpolate_str w t false).2)),
           ws.foldl (fun acc w => acc ∪ okKeys ((interpolate_str w t false).2)) accK) := by
  intro ws
  induction ws with
  | nil =>
    intro t accC accK h
    simp [cmdGo]
  | cons w rest ih =>
    intro t accC accK h
    simp only [cmdGo]
    split
    · next lg e heq =>
      have hw := h w (List.mem_cons_self _ _)
      rw [heq] at hw
      simp [exOk] at hw
    · next lg s ks heq =>
      have hrest : ∀ x ∈ rest, exOk ((interpolate_str x t false).2) = true :=
        fun x hx => h x (List.mem_cons_of_mem _ hx)
      refine Eq.trans (ih t (accC ++ [s]) (accK ∪ ks) hrest) ?_
      rw [List.map_cons, List.foldl_cons, heq]
      simp [okOut, okKeys, List.append_assoc]

/-- Claim C4: for every list of words and every table on which each word
interpolates successfully, the batch entry point returns the list whose i-th
element is the single-string interpolation of the i-th word with
`quote_dict=false` (the element-wise map, so same length and order),
together with the left-fold union of all per-word involved-key sets. -/
theorem batch_maps_interpolate_one (ws : List String) (t : Value)
    (h : ∀ w ∈ ws, exOk ((interpolate_str w t false).2) = true) :
    (cmd_interpolate ws t).2 =
      .ok (ws.map (fun w => okOut ((interpolate_str w t false).2)),
           ws.foldl (fun acc w => acc ∪ okKeys ((interpolate_str w t false).2)) ∅) := by
  have := cmdGo_all_ok ws t [] ∅ h
  simpa [cmd_interpolate] using this

/-- Witness for claim C4 on the spec's batch scenario. -/
theorem batch_maps_interpolate_one_witness :
    (cmd_interpolate ["--opt", "%(cfg)"]
        (Value.dictCons "cfg" (Value.dictCons "k" (Value.str "v") Value.dictNil) Value.dictNil)).2 =
      .ok (["--opt", "%(cfg)"].map (fun w => okOut ((interpolate_str w
              (Value.dictCons "cfg" (Value.dictCons "k" (Value.str "v") Value.dictNil) Value.dictNil)
              false).2)),
           ["--opt", "%(cfg)"].foldl (fun acc w => acc ∪ okKeys ((interpolate_str w
              (Value.dictCons "cfg" (Value.dictCons "k" (Value.str "v") Value.dictNil) Value.dictNil)
              false).2)) ∅) :=
  batch_maps_interpolate_one _ _ (by decide)

theorem cmdGo_fail : ∀ (pre : List String) (t : Value) (accC : List String)
    (accK : Finset String) (w : String) (post : List String) (e : CmdErr),
    (∀ x ∈ pre, exOk ((interpolate_str x t false).2) = true) →
    (interpolate_str w t false).2 = .error e →
    (cmdGo t accC accK (pre ++ w :: post)).2 = .error e := by
  intro pre
  induction pre with
  | nil =>
    intro t accC accK w post e hpre hw
    simp only [List.nil_append, cmdGo]
    split
    · next lg e0 heq =>
      rw [heq] at hw
      injection hw with hw
      rw [← hw]
    · next lg s ks heq =>
      rw [heq] at hw
      simp at hw
  | cons x pre ih =>
    intro t accC accK w post e hpre hw
    simp only [List.cons_append, cmdGo]
    split
    · next lg e0 heq =>
      have hx := hpre x (List.mem_cons_self _ _)
      rw [heq] at hx
      simp [exOk] at hx
    · next lg s ks heq =>
      exact ih t _ _ w post e (fun y hy => hpre y (List.mem_cons_of_mem _ hy)) hw

/-- Claim C5: for every batch in which the words before `w` interpolate
successfully and `w` fails with error `e`, the batch entry point propagates
exactly that error (all-or-nothing: no partial result list is returned). -/
theorem batch_fail_fast (t : Value) (pre : List String) (w : String) (post : List String)
    (e : CmdErr)
    (hpre : ∀ x ∈ pre, exOk ((interpolate_str x t false).2) = true)
    (hw : (interpolate_str w t false).2 = .error e) :
    (cmd_interpolate (pre ++ w :: post) t).2 = .error e :=
  cmdGo_fail pre t [] ∅ w post e hpre hw

/-- Witness for claim C5: the failing middle word aborts the batch with its
own key-not-found error. -/
theorem batch_fail_fast_witness :
    (cmd_interpolate (["ok"] ++ "%(missing)" :: ["tail"]) Value.dictNil).2 =
      .error (.keyError (keyNotFoundMsg "missing" Value.dictNil)) :=
  batch_fail_fast Value.dictNil ["ok"] "%(missing)" ["tail"]
    (.keyError (keyNotFoundMsg "missing" Value.dictNil)) (by decide) (by decide)

theorem swapQuote_involutive (c : Char) : swapQuote (swapQuote c) = c := by
  by_cases h1 : c = sq
  · subst h1
    decide
  · by_cases h2 : c = dq
    · subst h2
      decide
    · have hin : swapQuote c = c := by rw [swapQuote, if_neg h1, if_neg h2]
      rw [hin, hin]

theorem map_swapQuote_twice : ∀ (d : List Char),
    List.map swapQuote (List.map swapQuote d) = d := by
  intro d
  induction d with
  | nil => rfl
  | cons c cs ih => simp [List.map_cons, swapQuote_involutive, ih]

theorem reverse_quotes_involutive (s : String) : reverse_quotes (reverse_quotes s) = s := by
  rcases s with ⟨d⟩
  show String.mk (List.map swapQuote (List.map swapQuote d)) = String.mk d
  rw [map_swapQuote_twice]

theorem swapQuote_eq_bsl_iff (c : Char) : swapQuote c = bsl ↔ c = bsl := by
  constructor
  · intro hc
    by_cases h1 : c = sq
    · subst h1
      exact absurd hc (by decide)
    · by_cases h2 : c = dq
      · subst h2
        exact absurd hc (by decide)
      · rwa [swapQuote, if_neg h1, if_neg h2] at hc
  · intro hc
    subst hc
    decide

theorem count_bsl_map_swapQuote : ∀ (d : List Char),
    List.count bsl (List.map swapQuote d) = List.count bsl d := by
  intro d
  induction d with
  | nil => rfl
  | cons c cs ih =>
    rw [List.map_cons, List.count_cons, List.count_cons, ih]
    congr 1
    by_cases hc : c = bsl
    · subst hc
      decide
    · have h1 : (c == bsl) = false := beq_eq_false_iff_ne.mpr hc
      have h2 : (swapQuote c == bsl) = false :=
        beq_eq_false_iff_ne.mpr (fun hx => hc ((swapQuote_eq_bsl_iff c).mp hx))
      rw [h1, h2]

theorem unq_inS_escape : ∀ (cs : List Char), unq QSt.inS (sqEscape cs ++ [sq]) = some cs := by
  intro cs
  induction cs with
  | nil => decide
  | cons c cs ih =>
    by_cases h : c = sq
    · subst h
      show unq QSt.inS (sq :: dq :: sq :: dq :: sq :: (sqEscape cs ++ [sq])) = some (sq :: cs)
      have e1 : (dq = sq) = False := eq_false (by decide)
      have e2 : (sq = dq) = False := eq_false (by decide)
      have e3 : (sq = bsl) = False := eq_false (by decide)
      simp [unq, ih, e1, e2, e3]
    · rw [sqEscape, if_neg h]
      show unq QSt.inS (c :: (sqEscape cs ++ [sq])) = some (c :: cs)
      rw [unq, if_neg h, ih]
      rfl

theorem unq_out_sq (cs : List Char) : unq QSt.out (sq :: cs) = unq QSt.inS cs := by
  simp [unq]

theorem pyStr_eq_pyRepr_of_isDict (v : Value) (h : v.isDict = true) : pyStr v = pyRepr v := by
  cases v <;> first | rfl | simp [Value.isDict] at h

theorem pyStr_dict_head (v : Value) (h : v.isDict = true) :
    ∃ rest, (pyStr v).data = Char.ofNat 123 :: rest := by
  cases v with
  | dictNil => exact ⟨[Char.ofNat 125], rfl⟩
  | dictCons k w t => exact ⟨((pyReprP (Value.dictCons k w t)).2 ++ "\x7d").data, rfl⟩
  | null => simp [Value.isDict] at h
  | bool b => simp [Value.isDict] at h
  | int n => simp [Value.isDict] at h
  | str s => simp [Value.isDict] at h
  | listNil => simp [Value.isDict] at h
  | listCons a b => simp [Value.isDict] at h

/-- Claim C7: for every placeholder value that is a Mapping, the text
rendered with `quote_dict=true` is a single well-formed shell token, and
removing one layer of shell quoting/escaping from it yields exactly the text
rendered for the same value with `quote_dict=false`. -/
theorem quote_dict_shell_roundtrip (v : Value) (h : v.isDict = true) :
    shellUnquote (renderValue true v) = some (renderValue false v) := by
  obtain ⟨rest, hdata⟩ := pyStr_dict_head v h
  have hs0data : (reverse_quotes (pyStr v)).data = Char.ofNat 123 :: List.map swapQuote rest := by
    show List.map swapQuote (pyStr v).data = _
    rw [hdata]
    rfl
  have hrenderT : renderValue true v = shlexQuote (reverse_quotes (pyStr v)) := by
    rw [renderValue, if_pos h]
    rfl
  have hrenderF : renderValue false v = reverse_quotes (pyStr v) := by
    rw [renderValue, if_pos h]
    rfl
  have hne : ¬((reverse_quotes (pyStr v)).data = []) := by
    rw [hs0data]
    simp
  have hall : ¬((reverse_quotes (pyStr v)).data.all shlexSafeChar = true) := by
    rw [hs0data]
    simp only [List.all_cons, Bool.and_eq_true]
    intro hc
    exact absurd hc.1 (by decide)
  have hquote : shlexQuote (reverse_quotes (pyStr v)) =
      String.mk (sq :: sqEscape (reverse_quotes (pyStr v)).data ++ [sq]) := by
    rw [shlexQuote, if_neg hne, if_neg hall]
  calc shellUnquote (renderValue true v)
      = (unq QSt.out (sq :: (sqEscape (reverse_quotes (pyStr v)).data ++ [sq]))).map
          String.mk := by rw [hrenderT, hquote]; rfl
    _ = (unq QSt.inS (sqEscape (reverse_quotes (pyStr v)).data ++ [sq])).map String.mk := by
          rw [unq_out_sq]
    _ = (some (reverse_quotes (pyStr v)).data).map String.mk := by rw [unq_inS_escape]
    _ = some (reverse_quotes (pyStr v)) := rfl
    _ = some (renderValue false v) := by rw [hrenderF]

/-- Witness for claim C7 on a concrete one-entry mapping. -/
theorem quote_dict_shell_roundtrip_witness :
    shellUnquote (renderValue true (Value.dictCons "k" (Value.str "v") Value.dictNil)) =
      some (renderValue false (Value.dictCons "k" (Value.str "v") Value.dictNil)) :=
  quote_dict_shell_roundtrip (Value.dictCons "k" (Value.str "v") Value.dictNil) rfl

/-- Claim C8: for every placeholder value that is a Mapping, the
`quote_dict=false` rendering is exactly the quote-swap of the canonical
textual rendering (no shell escaping is applied, so it has exactly the
backslashes of the canonical rendering and no added ones), and swapping the
quote characters back reproduces the canonical rendering; the quote-swap
transformation is an involution. -/
theorem quote_swap_roundtrip (v : Value) (h : v.isDict = true) :
    renderValue false v = reverse_quotes (pyRepr v) ∧
    reverse_quotes (renderValue false v) = pyRepr v ∧
    (∀ s, reverse_quotes (reverse_quotes s) = s) ∧
    List.count bsl (renderValue false v).data = List.count bsl (pyRepr v).data := by
  have hrf : renderValue false v = reverse_quotes (pyRepr v) := by
    rw [renderValue, if_pos h, pyStr_eq_pyRepr_of_isDict v h]
    rfl
  refine ⟨hrf, ?_, reverse_quotes_involutive, ?_⟩
  · rw [hrf, reverse_quotes_involutive]
  · rw [hrf]
    show List.count bsl (List.map swapQuote (pyRepr v).data) = _
    exact count_bsl_map_swapQuote _

/-- Witness for claim C8 on a concrete one-entry mapping. -/
theorem quote_swap_roundtrip_witness :
    renderValue false (Value.dictCons "k" (Value.str "v") Value.dictNil) =
      reverse_quotes (pyRepr (Value.dictCons "k" (Value.str "v") Value.dictNil)) ∧
    reverse_quotes (renderValue false (Value.dictCons "k" (Value.str "v") Value.dictNil)) =
      pyRepr (Value.dictCons "k" (Value.str "v") Value.dictNil) ∧
    (∀ s, reverse_quotes (reverse_quotes s) = s) ∧
    List.count bsl (renderValue false (Value.dictCons "k" (Value.str "v") Value.dictNil)).data =
      List.count bsl (pyRepr (Value.dictCons "k" (Value.str "v") Value.dictNil)).data :=
  quote_swap_roundtrip (Value.dictCons "k" (Value.str "v") Value.dictNil) rfl

end Labtasker
